import Mathlib

/-!
# Verification of the Xiangqi board logic (chess_logic.py)

This file gives a shallow embedding, in Lean 4, of the rules engine of the
repository (the `ChessBoard` class of `chess_logic.py`), and proves / refutes
the specification claims about it.

Conventions of the embedding:
* Python mutable methods become pure functions taking the `ChessBoard` state
  and returning the new state (paired with the Python return value).
* Python `int` becomes `Int`; list indices are converted to `Nat` at the point
  of list access, mirroring the bounds checks present in the source.
* Python strings become Lean `String` / `List Char`; Python's `str.split()`,
  `str.split('/')` and `int(...)` builtins are modelled explicitly
  (ASCII semantics).
* `None` returns become `Option.none`; an out-of-range Python list write,
  which the source never performs on the code paths treated here, is a no-op
  in the embedding (`List.set` semantics).
-/

namespace Xiangqi

/-- Piece kinds, from `class PieceType(Enum)` in chess_logic.py. -/
inductive PieceType where
  | king
  | advisor
  | bishop
  | rook
  | knight
  | cannon
  | pawn
deriving DecidableEq, Repr

/-- Sides, from `class Side(Enum)`: RED = 0, BLACK = 1. -/
inductive Side where
  | red
  | black
deriving DecidableEq, Repr

/-- The opponent of a side (`Side.BLACK if side == Side.RED else Side.RED`). -/
def Side.other : Side → Side
  | .red => .black
  | .black => .red

/-- A piece: `@dataclass class Piece: type, side`. -/
structure Piece where
  type : PieceType
  side : Side
deriving DecidableEq, Repr

/-- `Piece.to_char`: FEN character, uppercase for Red, lowercase for Black. -/
def Piece.to_char (p : Piece) : Char :=
  match p.side, p.type with
  | .red, .king => 'K'
  | .red, .advisor => 'A'
  | .red, .bishop => 'B'
  | .red, .rook => 'R'
  | .red, .knight => 'N'
  | .red, .cannon => 'C'
  | .red, .pawn => 'P'
  | .black, .king => 'k'
  | .black, .advisor => 'a'
  | .black, .bishop => 'b'
  | .black, .rook => 'r'
  | .black, .knight => 'n'
  | .black, .cannon => 'c'
  | .black, .pawn => 'p'

/-- `Piece.from_char`: digit gives `None`; uppercase means Red; the lowered
character is matched against the seven piece letters. -/
def Piece.from_char (c : Char) : Option Piece :=
  if c.isDigit then none
  else
    let side : Side := if c.isUpper then .red else .black
    let cl := c.toLower
    if cl = 'k' then some ⟨.king, side⟩
    else if cl = 'a' then some ⟨.advisor, side⟩
    else if cl = 'b' then some ⟨.bishop, side⟩
    else if cl = 'r' then some ⟨.rook, side⟩
    else if cl = 'n' then some ⟨.knight, side⟩
    else if cl = 'c' then some ⟨.cannon, side⟩
    else if cl = 'p' then some ⟨.pawn, side⟩
    else none

/-- One row of the board: `board[rank]` is a list of 9 `Optional[Piece]`. -/
abbrev Row := List (Option Piece)

/-- The grid: `board[rank][file]`, 10 rows of 9 cells. -/
abbrev Grid := List Row

/-- Raw cell read `board[rank][file]` (the source's direct indexing, always
performed on in-range indices of a well-formed grid). -/
def getCell (g : Grid) (rank file : Nat) : Option Piece :=
  (g.getD rank []).getD file none

/-- Raw cell write `board[rank][file] = v`. -/
def setCell (g : Grid) (rank file : Nat) (v : Option Piece) : Grid :=
  g.set rank ((g.getD rank []).set file v)

/-- `get_piece`: bounds-checked read; out of range gives `None`. -/
def get_piece (g : Grid) (file rank : Int) : Option Piece :=
  if 0 ≤ file ∧ file < 9 ∧ 0 ≤ rank ∧ rank < 10 then
    getCell g rank.toNat file.toNat
  else none

/-- Cell write at `Int` coordinates (the hypothetical-move mutation
`test_board.board[to_rank][to_file] = piece`, used with in-range indices). -/
def setCellI (g : Grid) (rank file : Int) (v : Option Piece) : Grid :=
  setCell g rank.toNat file.toNat v

/-- An all-empty grid: `[[None] * 9 for _ in range(10)]`. -/
def emptyGrid : Grid := List.replicate 10 (List.replicate 9 none)

/-- Well-formedness of a grid: 10 rows of 9 cells, as built by the source. -/
def GridWF (g : Grid) : Prop :=
  g.length = 10 ∧ ∀ r ∈ g, r.length = 9

instance (g : Grid) : Decidable (GridWF g) := by
  unfold GridWF; infer_instance

/-- The board state: the fields set up in `ChessBoard.__init__`. -/
structure ChessBoard where
  board : Grid
  current_side : Side
  move_history : List String
  position_history : List Grid
  check_history : List (String × Bool)
  halfmove_clock : Int
  fullmove_number : Int
deriving DecidableEq, Repr

/-- `ChessBoard.copy`: deep copy of the grid; `position_history` is reset to
the empty list while `move_history` and `check_history` are copied. -/
def ChessBoard.copy (b : ChessBoard) : ChessBoard :=
  { board := b.board
    current_side := b.current_side
    move_history := b.move_history
    position_history := []
    check_history := b.check_history
    halfmove_clock := b.halfmove_clock
    fullmove_number := b.fullmove_number }

/-- `range(a, b)` over integers (used for path scans). -/
def intRange (a b : Int) : List Int :=
  (List.range (b - a).toNat).map (fun i => a + (i : Int))

/-- `_in_palace`. -/
def in_palace (file rank : Int) (side : Side) : Bool :=
  if ¬ (3 ≤ file ∧ file ≤ 5) then false
  else match side with
    | .red => decide (0 ≤ rank ∧ rank ≤ 2)
    | .black => decide (7 ≤ rank ∧ rank ≤ 9)

/-- `_on_own_side`. -/
def on_own_side (rank : Int) (side : Side) : Bool :=
  match side with
  | .red => decide (rank ≤ 4)
  | .black => decide (5 ≤ rank)

/-- `_path_clear`: no piece strictly between the two squares on a line. -/
def path_clear (g : Grid) (ff fr tf tr : Int) : Bool :=
  if ff = tf then
    let se : Int × Int := if fr < tr then (fr + 1, tr) else (tr + 1, fr)
    (intRange se.1 se.2).all (fun rank => (get_piece g ff rank).isNone)
  else
    let se : Int × Int := if ff < tf then (ff + 1, tf) else (tf + 1, ff)
    (intRange se.1 se.2).all (fun file => (get_piece g file fr).isNone)

/-- `_count_pieces_between`. -/
def count_pieces_between (g : Grid) (ff fr tf tr : Int) : Nat :=
  if ff = tf then
    let se : Int × Int := if fr < tr then (fr + 1, tr) else (tr + 1, fr)
    ((intRange se.1 se.2).filter (fun rank => (get_piece g ff rank).isSome)).length
  else
    let se : Int × Int := if ff < tf then (ff + 1, tf) else (tf + 1, ff)
    ((intRange se.1 se.2).filter (fun file => (get_piece g file fr).isSome)).length

/-- `_is_valid_piece_move`: the per-kind movement-shape rule, with
`df = tf - ff`, `dr = tr - fr` and `adf`/`adr` their absolute values written
out at each use. -/
def is_valid_piece_move (g : Grid) (p : Piece) (ff fr tf tr : Int) : Bool :=
  match p.type with
  | .king =>
      if ¬ in_palace tf tr p.side then false
      else decide (((tf - ff).natAbs = 1 ∧ (tr - fr).natAbs = 0) ∨
                   ((tf - ff).natAbs = 0 ∧ (tr - fr).natAbs = 1))
  | .advisor =>
      if ¬ in_palace tf tr p.side then false
      else decide ((tf - ff).natAbs = 1 ∧ (tr - fr).natAbs = 1)
  | .bishop =>
      if ¬ on_own_side tr p.side then false
      else if ¬ ((tf - ff).natAbs = 2 ∧ (tr - fr).natAbs = 2) then false
      else (get_piece g (ff + (tf - ff) / 2) (fr + (tr - fr) / 2)).isNone
  | .rook =>
      if tf - ff ≠ 0 ∧ tr - fr ≠ 0 then false
      else path_clear g ff fr tf tr
  | .knight =>
      if ¬ (((tf - ff).natAbs = 1 ∧ (tr - fr).natAbs = 2) ∨
            ((tf - ff).natAbs = 2 ∧ (tr - fr).natAbs = 1)) then false
      else if (tf - ff).natAbs = 2 then
        (get_piece g (ff + (tf - ff) / 2) fr).isNone
      else
        (get_piece g ff (fr + (tr - fr) / 2)).isNone
  | .cannon =>
      if tf - ff ≠ 0 ∧ tr - fr ≠ 0 then false
      else
        match get_piece g tf tr with
        | none => decide (count_pieces_between g ff fr tf tr = 0)
        | some _ => decide (count_pieces_between g ff fr tf tr = 1)
  | .pawn =>
      match p.side with
      | .red =>
          decide (tr - fr = 1 ∧ tf - ff = 0) ||
          (decide (tr - fr = 0 ∧ (tf - ff).natAbs = 1) && decide (5 ≤ fr))
      | .black =>
          decide (tr - fr = -1 ∧ tf - ff = 0) ||
          (decide (tr - fr = 0 ∧ (tf - ff).natAbs = 1) && decide (fr ≤ 4))

/-- All 90 squares as `(file, rank)`, scanned rank-major as in the source's
`for rank in range(RANKS): for file in range(FILES)` loops. -/
def allCoords : List (Int × Int) :=
  (List.range 10).flatMap (fun (r : Nat) =>
    (List.range 9).map (fun (f : Nat) => ((f : Int), (r : Int))))

/-- `_find_king`: first `(file, rank)` holding the given side's King. -/
def find_king (g : Grid) (side : Side) : Option (Int × Int) :=
  allCoords.findSome? (fun fr =>
    match get_piece g fr.1 fr.2 with
    | some p => if p.type = .king ∧ p.side = side then some fr else none
    | none => none)

/-- `_kings_face_each_other`: same file, no piece strictly between. -/
def kings_face_each_other (g : Grid) : Bool :=
  match find_king g .red, find_king g .black with
  | some rk, some bk =>
      if rk.1 ≠ bk.1 then false
      else
        (intRange (min rk.2 bk.2 + 1) (max rk.2 bk.2)).all
          (fun rank => (get_piece g rk.1 rank).isNone)
  | _, _ => false

/-- `_is_king_in_check`: some enemy piece has a shape-valid move onto the
King's square (with the Cannon additionally needing exactly one screen);
a missing King counts as "in check". -/
def is_king_in_check (g : Grid) (side : Side) : Bool :=
  match find_king g side with
  | none => true
  | some k =>
      let enemy := side.other
      allCoords.any (fun fr =>
        match get_piece g fr.1 fr.2 with
        | some p =>
            p.side = enemy &&
            is_valid_piece_move g p fr.1 fr.2 k.1 k.2 &&
            (if p.type = .cannon then decide (count_pieces_between g fr.1 fr.2 k.1 k.2 = 1)
             else true)
        | none => false)

/-- The digit character of `n` (`str(n)` for a single-digit number). -/
def digitChar (n : Nat) : Char := Char.ofNat (48 + n)

/-- `_get_position_key`'s per-piece parts: `f"{file}{rank}{char}"` for every
occupied square, rank-major. -/
def keyParts (g : Grid) : List (List Char) :=
  allCoords.filterMap (fun fr =>
    match get_piece g fr.1 fr.2 with
    | some p => some [digitChar fr.1.toNat, digitChar fr.2.toNat, p.to_char]
    | none => none)

/-- `_get_position_key`: occupied squares plus the side-to-move character,
joined with a bar. -/
def position_key (g : Grid) (side : Side) : String :=
  String.mk (List.intercalate ['|']
    (keyParts g ++ [[if side = .red then 'w' else 'b']]))

/-- `_is_perpetual_check`'s counting loop: entries of `check_history` whose
key equals the new key, which were checks, and whose index parity matches the
checking side (even index = Red just moved). -/
def perpetualCount (hist : List (String × Bool)) (newKey : String) (checking : Side) : Nat :=
  (hist.enum.filter (fun ie =>
    decide (ie.2.1 = newKey) && ie.2.2 &&
    (match checking with
     | .red => decide (ie.1 % 2 = 0)
     | .black => decide (ie.1 % 2 = 1)))).length

/-- The grid after hypothetically playing `(ff,fr) → (tf,tr)` with piece `p`
(`board[to] = piece; board[from] = None`). -/
def apply_move_grid (g : Grid) (ff fr tf tr : Int) (p : Piece) : Grid :=
  setCellI (setCellI g tr tf (some p)) fr ff none

/-- `is_valid_move`: the full legality check. The position key used for the
perpetual-check test is computed with the side to move switched to the
opponent, matching how `make_move` records history. -/
def is_valid_move (b : ChessBoard) (ff fr tf tr : Int) : Bool :=
  match get_piece b.board ff fr with
  | none => false
  | some piece =>
      if piece.side ≠ b.current_side then false
      else if (match get_piece b.board tf tr with
               | some t => decide (t.side = piece.side)
               | none => false) then false
      else if ¬ is_valid_piece_move b.board piece ff fr tf tr then false
      else if is_king_in_check (apply_move_grid b.board ff fr tf tr piece) piece.side then false
      else if kings_face_each_other (apply_move_grid b.board ff fr tf tr piece) then false
      else if is_king_in_check (apply_move_grid b.board ff fr tf tr piece) piece.side.other then
        if 2 ≤ perpetualCount b.check_history
             (position_key (apply_move_grid b.board ff fr tf tr piece) piece.side.other)
             piece.side then false
        else true
      else true

/-! ## String utilities modelling Python builtins -/

/-- Worker for `str.split()`: splits on whitespace runs, dropping empties;
`acc` is the current token, reversed. -/
def splitWsAux : List Char → List Char → List (List Char)
  | [], acc => if acc = [] then [] else [acc.reverse]
  | c :: rest, acc =>
      if c.isWhitespace then
        if acc = [] then splitWsAux rest []
        else acc.reverse :: splitWsAux rest []
      else splitWsAux rest (c :: acc)

/-- Python `str.split()` (no separator). -/
def pySplitWs (l : List Char) : List (List Char) := splitWsAux l []

/-- Worker for `str.split(sep)`: splits on a single character, keeping
empty fields. -/
def splitCharAux (sep : Char) : List Char → List Char → List (List Char)
  | [], acc => [acc.reverse]
  | c :: rest, acc =>
      if c = sep then acc.reverse :: splitCharAux sep rest []
      else splitCharAux sep rest (c :: acc)

/-- Python `str.split(sep)` for a one-character separator. -/
def pySplitChar (sep : Char) (l : List Char) : List (List Char) :=
  splitCharAux sep l []

/-- Digit groups possibly separated by single underscores, continuing an
already-seen value (models the digit part of Python `int(...)`). -/
def pyDigitsAux : List Char → Nat → Option Nat
  | [], acc => some acc
  | '_' :: c :: rest, acc =>
      if c.isDigit then pyDigitsAux rest (acc * 10 + (c.toNat - 48)) else none
  | ['_'], _ => none
  | c :: rest, acc =>
      if c.isDigit then pyDigitsAux rest (acc * 10 + (c.toNat - 48)) else none

/-- Nonempty digit string (with optional underscore separators) to a number. -/
def pyParseNat : List Char → Option Nat
  | [] => none
  | c :: rest => if c.isDigit then pyDigitsAux rest (c.toNat - 48) else none

/-- Python `int(s)`: strip whitespace, optional sign, digits. Raising
`ValueError` is modelled as `none`. -/
def pyParseInt (l : List Char) : Option Int :=
  let t := (l.dropWhile Char.isWhitespace).reverse.dropWhile Char.isWhitespace |>.reverse
  match t with
  | '+' :: rest => (pyParseNat rest).map (fun n => (n : Int))
  | '-' :: rest => (pyParseNat rest).map (fun n => -(n : Int))
  | rest => (pyParseNat rest).map (fun n => (n : Int))

/-- Decimal digits of a natural number (`str(n)` for `n : Nat`). -/
def natToChars (n : Nat) : List Char :=
  if _h : n < 10 then [digitChar n]
  else natToChars (n / 10) ++ [digitChar (n % 10)]
decreasing_by exact Nat.div_lt_self (by omega) (by omega)

/-- Python `str(i)` for an integer. -/
def intToChars (i : Int) : List Char :=
  if i < 0 then '-' :: natToChars (-i).toNat else natToChars i.toNat

/-- Join a list of tokens with a separator character (`sep.join(parts)`). -/
def joinChar (sep : Char) : List (List Char) → List Char
  | [] => []
  | [p] => p
  | p :: ps => p ++ sep :: joinChar sep ps

/-! ## FEN serialization and parsing -/

/-- The inner loop of `to_fen` for one rank: pieces as characters, runs of
empty cells as a digit; `ec` is the pending empty count. -/
def serRankAux : Row → Nat → List Char
  | [], ec => if 0 < ec then [digitChar ec] else []
  | none :: rest, ec => serRankAux rest (ec + 1)
  | some p :: rest, ec =>
      (if 0 < ec then [digitChar ec] else []) ++ p.to_char :: serRankAux rest 0

/-- One rank of the FEN placement field. -/
def serRank (row : Row) : List Char := serRankAux row 0

/-- `to_fen`: placement (ranks 9 down to 0), active color, two placeholder
dashes, halfmove clock and fullmove number, joined with spaces. -/
def to_fen (b : ChessBoard) : String :=
  String.mk (joinChar ' '
    [joinChar '/' (b.board.reverse.map serRank),
     [if b.current_side = .red then 'w' else 'b'],
     ['-'], ['-'],
     intToChars b.halfmove_clock,
     intToChars b.fullmove_number])

/-- The inner loop of `load_fen` for one rank string: digits advance the file
index, piece characters are placed when in range. -/
def parseRankAux : List Char → Nat → Row → Row
  | [], _, row => row
  | c :: rest, fi, row =>
      if c.isDigit then parseRankAux rest (fi + (c.toNat - 48)) row
      else
        match Piece.from_char c with
        | some p => parseRankAux rest (fi + 1) (if fi < 9 then row.set fi (some p) else row)
        | none => parseRankAux rest (fi + 1) row

/-- The rank loop of `load_fen`: rank string number `idx` is written into
board row `9 - idx`. -/
def loadRanks : Grid → List (List Char) → Nat → Grid
  | g, [], _ => g
  | g, rs :: rest, idx =>
      let rr := 10 - 1 - idx
      loadRanks (g.set rr (parseRankAux rs 0 (g.getD rr []))) rest (idx + 1)

/-- The unconditional clearing step at the top of `load_fen`: board and all
three histories are reset; side and clocks are kept. -/
def loadFenClear (b : ChessBoard) : ChessBoard :=
  { b with board := emptyGrid, move_history := [],
           position_history := [], check_history := [] }

/-- The active-color step of `load_fen`: only applied when a second token
exists; any token other than "w" yields Black. -/
def loadFenSide (b : ChessBoard) (restParts : List (List Char)) : ChessBoard :=
  match restParts with
  | [] => b
  | p1 :: _ => { b with current_side := if p1 = ['w'] then .red else .black }

/-- The halfmove-clock step of `load_fen`: `int(parts[4])` with a silently
swallowed parse failure. -/
def loadFenHalf (b : ChessBoard) (parts : List (List Char)) : ChessBoard :=
  if 5 ≤ parts.length then
    match pyParseInt (parts.getD 4 []) with
    | some n => { b with halfmove_clock := n }
    | none => b
  else b

/-- The fullmove-number step of `load_fen`: `int(parts[5])` with a silently
swallowed parse failure. -/
def loadFenFull (b : ChessBoard) (parts : List (List Char)) : ChessBoard :=
  if 6 ≤ parts.length then
    match pyParseInt (parts.getD 5 []) with
    | some n => { b with fullmove_number := n }
    | none => b
  else b

/-- `load_fen`: returns the updated board and the Python boolean result.
Clearing happens before the rank-count check, so a failure on rank count
leaves a cleared board (the source's behavior). -/
def load_fen (b : ChessBoard) (fen : String) : ChessBoard × Bool :=
  match pySplitWs fen.toList with
  | [] => (b, false)
  | p0 :: restParts =>
      if (pySplitChar '/' p0).length ≠ 10 then (loadFenClear b, false)
      else
        (loadFenFull
          (loadFenHalf
            (loadFenSide
              { loadFenClear b with
                  board := loadRanks emptyGrid (pySplitChar '/' p0) 0 }
              restParts)
            (p0 :: restParts))
          (p0 :: restParts), true)

/-! ## Move strings -/

/-- `parse_move`: UCI text to coordinates. Only the first four characters are
inspected (the source checks `len(move) < 4` and indexes `move[0..3]`). -/
def parse_move (move : String) : Option (Int × Int × Int × Int) :=
  match move.toList with
  | c0 :: c1 :: c2 :: c3 :: _ =>
      -- `int(move[i])` raises unless the character is a digit
      if c1.isDigit ∧ c3.isDigit then
        let ff : Int := (c0.toNat : Int) - 97
        let fr : Int := (c1.toNat : Int) - 48
        let tf : Int := (c2.toNat : Int) - 97
        let tr : Int := (c3.toNat : Int) - 48
        if 0 ≤ ff ∧ ff < 9 ∧ 0 ≤ fr ∧ fr < 10 ∧ 0 ≤ tf ∧ tf < 9 ∧ 0 ≤ tr ∧ tr < 10 then
          some (ff, fr, tf, tr)
        else none
      else none
  | _ => none

/-- The file letter of a coordinate (`chr(ord('a') + file)`). -/
def fileChar (f : Int) : Char := Char.ofNat (97 + f.toNat)

/-- The rank digit of a coordinate (`str(rank)` for a one-digit rank). -/
def rankChar (r : Int) : Char := Char.ofNat (48 + r.toNat)

/-- `format_move`: coordinates to a UCI string. -/
def format_move (ff fr tf tr : Int) : String :=
  String.mk [fileChar ff, rankChar fr, fileChar tf, rankChar tr]

/-! ## Move application and history -/

/-- `make_move`: parse, validate, then apply; returns the updated board and
the Python boolean result. On the `False` paths the source returns before
any mutation, so the input state is returned unchanged. -/
def make_move (b : ChessBoard) (move : String) : ChessBoard × Bool :=
  match parse_move move with
  | none => (b, false)
  | some (ff, fr, tf, tr) =>
      if ¬ is_valid_move b ff fr tf tr then (b, false)
      else
        match get_piece b.board ff fr with
        | none => (b, false)  -- unreachable: validity requires a piece at the origin
        | some piece =>
            ({ board := apply_move_grid b.board ff fr tf tr piece
               current_side := b.current_side.other
               move_history := b.move_history ++ [move]
               position_history := b.position_history ++ [b.board]
               check_history :=
                 (if (get_piece b.board tf tr).isSome = true ∨ piece.type = .pawn
                  then [] else b.check_history) ++
                 [(position_key (apply_move_grid b.board ff fr tf tr piece) b.current_side.other,
                   is_king_in_check (apply_move_grid b.board ff fr tf tr piece)
                     b.current_side.other)]
               halfmove_clock :=
                 if (get_piece b.board tf tr).isSome = true ∨ piece.type = .pawn
                 then 0 else b.halfmove_clock + 1
               fullmove_number :=
                 if b.current_side = .black then b.fullmove_number + 1
                 else b.fullmove_number }, true)

/-- `undo_move`: pop the last snapshot and move (and check-history entry),
flip the side back, and adjust the fullmove number. -/
def undo_move (b : ChessBoard) : ChessBoard × Option String :=
  match b.move_history.getLast?, b.position_history.getLast? with
  | some mv, some grid =>
      let side := b.current_side.other
      ({ board := grid
         current_side := side
         move_history := b.move_history.dropLast
         position_history := b.position_history.dropLast
         check_history := b.check_history.dropLast
         halfmove_clock := b.halfmove_clock
         fullmove_number :=
           if side = .black then b.fullmove_number - 1 else b.fullmove_number }, some mv)
  | _, _ => (b, none)

/-! ## Legal-move enumeration -/

/-- `get_legal_moves(from)`: all destinations accepted by `is_valid_move`,
scanned file-major as in the source. -/
def get_legal_moves (b : ChessBoard) (ff fr : Int) : List (Int × Int) :=
  (List.range 9).flatMap (fun (tf : Nat) =>
    (List.range 10).filterMap (fun (tr : Nat) =>
      if is_valid_move b ff fr (tf : Int) (tr : Int) then some ((tf : Int), (tr : Int))
      else none))

/-- The scan-line candidates of `get_all_legal_moves` for Chariot and Cannon:
every other square on the same rank, then every other square on the same
file. -/
def scanTargets (f1 r1 : Int) : List (Int × Int) :=
  ((List.range 9).filterMap (fun (i : Nat) =>
    if (i : Int) ≠ f1 then some ((i : Int), r1) else none)) ++
  ((List.range 10).filterMap (fun (i : Nat) =>
    if (i : Int) ≠ r1 then some (f1, (i : Int)) else none))

/-- The per-kind candidate destinations of `get_all_legal_moves`. -/
def pieceTargets (b : ChessBoard) (pt : PieceType) (f1 r1 : Int) : List (Int × Int) :=
  match pt with
  | .king => [(f1, r1 + 1), (f1, r1 - 1), (f1 + 1, r1), (f1 - 1, r1)]
  | .advisor => [(f1 + 1, r1 + 1), (f1 + 1, r1 - 1), (f1 - 1, r1 + 1), (f1 - 1, r1 - 1)]
  | .bishop => [(f1 + 2, r1 + 2), (f1 + 2, r1 - 2), (f1 - 2, r1 + 2), (f1 - 2, r1 - 2)]
  | .knight =>
      [(f1 + 1, r1 + 2), (f1 + 1, r1 - 2), (f1 - 1, r1 + 2), (f1 - 1, r1 - 2),
       (f1 + 2, r1 + 1), (f1 + 2, r1 - 1), (f1 - 2, r1 + 1), (f1 - 2, r1 - 1)]
  | .rook => scanTargets f1 r1
  | .cannon => scanTargets f1 r1
  | .pawn =>
      if (b.current_side = .red ∧ 4 < r1) ∨ (b.current_side = .black ∧ r1 < 5) then
        [(f1, r1 + (if b.current_side = .red then 1 else -1)),
         (f1 + 1, r1), (f1 - 1, r1)]
      else
        [(f1, r1 + (if b.current_side = .red then 1 else -1))]

/-- `get_all_legal_moves`: per-piece generator candidates, bounds-filtered and
validated, rendered as UCI strings. -/
def get_all_legal_moves (b : ChessBoard) : List String :=
  (List.range 10).flatMap (fun r1 =>
    (List.range 9).flatMap (fun f1 =>
      match getCell b.board r1 f1 with
      | none => []
      | some piece =>
          if piece.side ≠ b.current_side then []
          else
            (pieceTargets b piece.type (f1 : Int) (r1 : Int)).filterMap (fun t =>
              if 0 ≤ t.1 ∧ t.1 < 9 ∧ 0 ≤ t.2 ∧ t.2 < 10 then
                if is_valid_move b (f1 : Int) (r1 : Int) t.1 t.2 then
                  some (format_move (f1 : Int) (r1 : Int) t.1 t.2)
                else none
              else none)))

/-! ## ICCS conversion -/

/-- `iccs_to_move`: strip every dash, lowercase, then check the UCI shape. -/
def iccs_to_move (text : String) : Option String :=
  if text.toList = [] then none
  else
    let clean := (text.toList.filter (fun c => c ≠ '-')).map Char.toLower
    if clean.length = 4 then
      let c0 := clean.getD 0 ' '
      let c1 := clean.getD 1 ' '
      let c2 := clean.getD 2 ' '
      let c3 := clean.getD 3 ' '
      if ('a' ≤ c0 ∧ c0 ≤ 'i') ∧ ('0' ≤ c1 ∧ c1 ≤ '9') ∧
         ('a' ≤ c2 ∧ c2 ≤ 'i') ∧ ('0' ≤ c3 ∧ c3 ≤ '9') then
        some (String.mk clean)
      else none
    else none

/-- The FEN of the standard starting position (`STARTING_FEN`). -/
def STARTING_FEN : String :=
  "rnbakabnr/9/1c5c1/p1p1p1p1p/9/9/P1P1P1P1P/1C5C1/9/RNBAKABNR w - - 0 1"

/-- `ChessBoard.__init__`: fields initialised, then `load_fen(STARTING_FEN)`. -/
def initialBoard : ChessBoard :=
  (load_fen
    { board := emptyGrid
      current_side := .red
      move_history := []
      position_history := []
      check_history := []
      halfmove_clock := 0
      fullmove_number := 1 } STARTING_FEN).1

/-! ## General helper lemmas -/

theorem isDigit_iff_toNat (c : Char) : c.isDigit = true ↔ 48 ≤ c.toNat ∧ c.toNat ≤ 57 := by
  unfold Char.isDigit
  simp only [Bool.and_eq_true, decide_eq_true_eq, ge_iff_le]
  constructor
  · intro h
    exact ⟨h.1, h.2⟩
  · intro h
    exact ⟨h.1, h.2⟩

theorem Side.other_other (s : Side) : s.other.other = s := by
  cases s <;> rfl

/-! ## Claim C8: the accepted language of parse_move -/

/-- The spec's UCI shape, amended to constrain only the first four characters:
files are letters with codes 97 ('a') through 105 ('i'), ranks are decimal
digit characters. -/
def uciMovePrefixShape (m : String) : Prop :=
  ∃ c0 c1 c2 c3 rest, m.toList = c0 :: c1 :: c2 :: c3 :: rest ∧
    97 ≤ c0.toNat ∧ c0.toNat ≤ 105 ∧ c1.isDigit = true ∧
    97 ≤ c2.toNat ∧ c2.toNat ≤ 105 ∧ c3.isDigit = true

/-- Claim C8, counterexample: the five-character string "a0a0!" is not of the
documented exactly-4-character UCI shape, yet `parse_move` accepts it instead
of returning `None` (the trailing character is ignored). -/
theorem parse_move_accepts_five_chars :
    parse_move "a0a0!" = some (0, 0, 0, 0) ∧ "a0a0!".length ≠ 4 := by
  constructor
  · rfl
  · decide

/-- Claim C8, amended: `parse_move` accepts a string if and only if it has at
least 4 characters and its first four characters have the UCI shape
`{file a-i}{rank 0-9}{file a-i}{rank 0-9}`; any further characters are
ignored, and every other string yields `None`. -/
theorem parse_move_isSome_iff_shape (m : String) :
    (parse_move m).isSome = true ↔ uciMovePrefixShape m := by
  unfold parse_move uciMovePrefixShape
  rcases hl : m.toList with _ | ⟨c0, _ | ⟨c1, _ | ⟨c2, _ | ⟨c3, rest⟩⟩⟩⟩ <;>
    simp only [hl]
  · simp
  · simp
  · simp
  · simp
  · constructor
    · intro h
      by_cases hd : c1.isDigit = true ∧ c3.isDigit = true
      · rw [if_pos hd] at h
        split at h
        · rename_i hrange
          exact ⟨c0, c1, c2, c3, rest, rfl, by omega, by omega, hd.1, by omega, by omega, hd.2⟩
        · simp at h
      · rw [if_neg hd] at h
        simp at h
    · rintro ⟨d0, d1, d2, d3, r, heq, h1, h2, h3, h4, h5, h6⟩
      simp only [List.cons.injEq] at heq
      obtain ⟨rfl, rfl, rfl, rfl, rfl⟩ := heq
      have hd1 := (isDigit_iff_toNat c1).mp h3
      have hd3 := (isDigit_iff_toNat c3).mp h6
      rw [if_pos ⟨h3, h6⟩, if_pos (by omega)]
      rfl

/-- Claim C8, witness for the amended theorem: "h2e2" is accepted. -/
theorem parse_move_isSome_iff_shape_witness :
    (parse_move "h2e2").isSome = true :=
  (parse_move_isSome_iff_shape "h2e2").mpr
    ⟨'h', '2', 'e', '2', [], rfl, by decide, by decide, by decide, by decide, by decide, by decide⟩

/-! ## Claim C10: iccs_to_move is permissive about dashes and case -/

/-- Claim C10: `iccs_to_move` removes every dash and lowercases before
validating, so besides the documented shape (for example "C3-C4") it also
accepts a dash-free string like "c3c4" and strings with multiple or misplaced
dashes such as "-C-3--C4-", converting them to the UCI move "c3c4". -/
theorem iccs_to_move_permissive :
    iccs_to_move "C3-C4" = some "c3c4" ∧
    iccs_to_move "c3c4" = some "c3c4" ∧
    iccs_to_move "-C-3--C4-" = some "c3c4" := by
  refine ⟨rfl, rfl, rfl⟩

/-! ## Claim C6: make_move returns false without mutation -/

/-- Claim C6: for every board state and every move string that is unparseable
or names an illegal move, `make_move` returns `False` and leaves the entire
board state unchanged (the source returns before any mutation). -/
theorem make_move_rejects_unchanged (b : ChessBoard) (m : String)
    (h : parse_move m = none ∨
         ∃ ff fr tf tr, parse_move m = some (ff, fr, tf, tr) ∧
           is_valid_move b ff fr tf tr = false) :
    make_move b m = (b, false) := by
  unfold make_move
  rcases h with h | ⟨ff, fr, tf, tr, hp, hv⟩
  · rw [h]
  · rw [hp]
    simp only [hv, Bool.false_eq_true, not_false_eq_true, if_true]

/-- Claim C6, witness: the unparseable string "zzzz" and the illegal move
"e0e2" (the Red General cannot jump two ranks) are both rejected on the
starting position, returning the board unchanged. -/
theorem make_move_rejects_unchanged_witness :
    make_move initialBoard "zzzz" = (initialBoard, false) ∧
    make_move initialBoard "e0e2" = (initialBoard, false) := by
  constructor
  · exact make_move_rejects_unchanged initialBoard "zzzz" (Or.inl (by rfl))
  · exact make_move_rejects_unchanged initialBoard "e0e2"
      (Or.inr ⟨4, 0, 4, 2, by rfl, by decide⟩)

/-- Reduction of `is_valid_move` once the piece at the origin is known. -/
theorem is_valid_move_of_piece (b : ChessBoard) (ff fr tf tr : Int) (p : Piece)
    (hp : get_piece b.board ff fr = some p) :
    is_valid_move b ff fr tf tr =
      (if p.side ≠ b.current_side then false
       else if (match get_piece b.board tf tr with
                | some t => decide (t.side = p.side)
                | none => false) then false
       else if ¬ is_valid_piece_move b.board p ff fr tf tr then false
       else if is_king_in_check (apply_move_grid b.board ff fr tf tr p) p.side then false
       else if kings_face_each_other (apply_move_grid b.board ff fr tf tr p) then false
       else if is_king_in_check (apply_move_grid b.board ff fr tf tr p) p.side.other then
         if 2 ≤ perpetualCount b.check_history
              (position_key (apply_move_grid b.board ff fr tf tr p) p.side.other) p.side
         then false
         else true
       else true) := by
  unfold is_valid_move
  rw [hp]

/-! ## Claim C4: self-check prevention -/

/-- Claim C4: for every board position (including arbitrary edited ones) and
every on-board (from, to) pair, if `is_valid_move` accepts the move then the
grid obtained by applying it leaves the mover's own General not in check. -/
theorem valid_move_no_self_check (b : ChessBoard) (ff fr tf tr : Int) (p : Piece)
    (hp : get_piece b.board ff fr = some p)
    (hv : is_valid_move b ff fr tf tr = true) :
    is_king_in_check (apply_move_grid b.board ff fr tf tr p) p.side = false := by
  rw [is_valid_move_of_piece b ff fr tf tr p hp] at hv
  by_cases h1 : p.side ≠ b.current_side
  · rw [if_pos h1] at hv
    exact Bool.noConfusion hv
  rw [if_neg h1] at hv
  by_cases h2 : (match get_piece b.board tf tr with
                 | some t => decide (t.side = p.side)
                 | none => false) = true
  · rw [if_pos h2] at hv
    exact Bool.noConfusion hv
  rw [if_neg h2] at hv
  by_cases h3 : ¬ is_valid_piece_move b.board p ff fr tf tr = true
  · rw [if_pos h3] at hv
    exact Bool.noConfusion hv
  rw [if_neg h3] at hv
  by_cases h4 : is_king_in_check (apply_move_grid b.board ff fr tf tr p) p.side = true
  · rw [if_pos h4] at hv
    exact Bool.noConfusion hv
  · rw [if_neg h4] at hv
    simpa using h4

/-- Claim C4, witness: on the starting position the cannon move h2e2 is
accepted and indeed leaves the Red General out of check. -/
theorem valid_move_no_self_check_witness :
    is_king_in_check
      (apply_move_grid initialBoard.board 7 2 4 2 ⟨.cannon, .red⟩) Side.red = false :=
  valid_move_no_self_check initialBoard 7 2 4 2 ⟨.cannon, .red⟩ (by decide) (by decide)

/-! ## Claim C1: the perpetual-check restriction -/

/-- Claim C1: consider a candidate move that passes all the piece-independent
and piece-specific legality stages (a piece of the side to move at the origin,
no friendly piece on the target, movement shape satisfied, no self-check, no
facing Generals). Then `is_valid_move` rejects it if and only if it delivers
check to the opponent and the same side has already delivered check at the
same resulting position key at least twice in `check_history` (judged by the
source's move-index parity: even index means Red had just moved). In
particular a move that does not give check is never restricted, and the first
two checking repetitions are accepted. -/
theorem perpetual_check_restriction (b : ChessBoard) (ff fr tf tr : Int) (p : Piece)
    (hp : get_piece b.board ff fr = some p)
    (hside : p.side = b.current_side)
    (htgt : ∀ t, get_piece b.board tf tr = some t → ¬ t.side = p.side)
    (hshape : is_valid_piece_move b.board p ff fr tf tr = true)
    (hself : is_king_in_check (apply_move_grid b.board ff fr tf tr p) p.side = false)
    (hface : kings_face_each_other (apply_move_grid b.board ff fr tf tr p) = false) :
    is_valid_move b ff fr tf tr = false ↔
      (is_king_in_check (apply_move_grid b.board ff fr tf tr p) p.side.other = true ∧
       2 ≤ perpetualCount b.check_history
             (position_key (apply_move_grid b.board ff fr tf tr p) p.side.other) p.side) := by
  have hsst : (match get_piece b.board tf tr with
      | some t => decide (t.side = p.side)
      | none => false) = false := by
    cases hq : get_piece b.board tf tr with
    | none => rfl
    | some t => simpa using htgt t hq
  rw [is_valid_move_of_piece b ff fr tf tr p hp]
  rw [if_neg (not_not_intro hside)]
  rw [if_neg (show ¬ _ = true by rw [hsst]; exact Bool.noConfusion)]
  rw [if_neg (by simp [hshape])]
  rw [if_neg (by simp [hself])]
  rw [if_neg (by simp [hface])]
  by_cases hchk : is_king_in_check (apply_move_grid b.board ff fr tf tr p) p.side.other = true
  · rw [if_pos hchk]
    by_cases hcnt : 2 ≤ perpetualCount b.check_history
        (position_key (apply_move_grid b.board ff fr tf tr p) p.side.other) p.side
    · rw [if_pos hcnt]
      simp [hchk, hcnt]
    · rw [if_neg hcnt]
      simp [hchk, hcnt]
  · rw [if_neg hchk]
    simp [hchk]

/-- A small edited position for exercising the perpetual-check rule: Black
General on d9, Red General on e0, Red Chariot on a8 about to check from d8. -/
def perpetualDemoBoard : ChessBoard :=
  (load_fen initialBoard "3k5/R8/9/9/9/9/9/9/9/4K4 w - - 0 1").1

/-- Claim C1, witness: on the demo position with empty `check_history`, the
checking chariot move a8d8 satisfies every hypothesis, and the theorem
instantiates to the acceptance of this first check. -/
theorem perpetual_check_restriction_witness :
    is_valid_move perpetualDemoBoard 0 8 3 8 = false ↔
      (is_king_in_check
         (apply_move_grid perpetualDemoBoard.board 0 8 3 8 ⟨.rook, .red⟩) Side.red.other = true ∧
       2 ≤ perpetualCount perpetualDemoBoard.check_history
             (position_key (apply_move_grid perpetualDemoBoard.board 0 8 3 8 ⟨.rook, .red⟩)
               Side.red.other) Side.red) :=
  perpetual_check_restriction perpetualDemoBoard 0 8 3 8 ⟨.rook, .red⟩
    (by decide) (by decide)
    (by intro t ht; rw [show get_piece perpetualDemoBoard.board 3 8 = none from by decide] at ht; exact Option.noConfusion ht)
    (by decide) (by decide) (by decide)

/-! ## Projection lemmas for the load_fen stages -/

theorem loadFenSide_board (b : ChessBoard) (r : List (List Char)) :
    (loadFenSide b r).board = b.board := by
  unfold loadFenSide
  split <;> rfl

theorem loadFenSide_halfmove (b : ChessBoard) (r : List (List Char)) :
    (loadFenSide b r).halfmove_clock = b.halfmove_clock := by
  unfold loadFenSide
  split <;> rfl

theorem loadFenSide_fullmove (b : ChessBoard) (r : List (List Char)) :
    (loadFenSide b r).fullmove_number = b.fullmove_number := by
  unfold loadFenSide
  split <;> rfl

theorem loadFenSide_move_history (b : ChessBoard) (r : List (List Char)) :
    (loadFenSide b r).move_history = b.move_history := by
  unfold loadFenSide
  split <;> rfl

theorem loadFenSide_position_history (b : ChessBoard) (r : List (List Char)) :
    (loadFenSide b r).position_history = b.position_history := by
  unfold loadFenSide
  split <;> rfl

theorem loadFenHalf_board (b : ChessBoard) (p : List (List Char)) :
    (loadFenHalf b p).board = b.board := by
  unfold loadFenHalf
  split
  · split <;> rfl
  · rfl

theorem loadFenHalf_side (b : ChessBoard) (p : List (List Char)) :
    (loadFenHalf b p).current_side = b.current_side := by
  unfold loadFenHalf
  split
  · split <;> rfl
  · rfl

theorem loadFenHalf_fullmove (b : ChessBoard) (p : List (List Char)) :
    (loadFenHalf b p).fullmove_number = b.fullmove_number := by
  unfold loadFenHalf
  split
  · split <;> rfl
  · rfl

theorem loadFenHalf_move_history (b : ChessBoard) (p : List (List Char)) :
    (loadFenHalf b p).move_history = b.move_history := by
  unfold loadFenHalf
  split
  · split <;> rfl
  · rfl

theorem loadFenHalf_position_history (b : ChessBoard) (p : List (List Char)) :
    (loadFenHalf b p).position_history = b.position_history := by
  unfold loadFenHalf
  split
  · split <;> rfl
  · rfl

theorem loadFenFull_board (b : ChessBoard) (p : List (List Char)) :
    (loadFenFull b p).board = b.board := by
  unfold loadFenFull
  split
  · split <;> rfl
  · rfl

theorem loadFenFull_side (b : ChessBoard) (p : List (List Char)) :
    (loadFenFull b p).current_side = b.current_side := by
  unfold loadFenFull
  split
  · split <;> rfl
  · rfl

theorem loadFenFull_halfmove (b : ChessBoard) (p : List (List Char)) :
    (loadFenFull b p).halfmove_clock = b.halfmove_clock := by
  unfold loadFenFull
  split
  · split <;> rfl
  · rfl

theorem loadFenFull_move_history (b : ChessBoard) (p : List (List Char)) :
    (loadFenFull b p).move_history = b.move_history := by
  unfold loadFenFull
  split
  · split <;> rfl
  · rfl

theorem loadFenFull_position_history (b : ChessBoard) (p : List (List Char)) :
    (loadFenFull b p).position_history = b.position_history := by
  unfold loadFenFull
  split
  · split <;> rfl
  · rfl

theorem loadFenHalf_retained (b : ChessBoard) (p : List (List Char))
    (h : p.length < 5 ∨ pyParseInt (p.getD 4 []) = none) :
    (loadFenHalf b p).halfmove_clock = b.halfmove_clock := by
  unfold loadFenHalf
  rcases h with h | h
  · rw [if_neg (by omega)]
  · split
    · rw [h]
    · rfl

theorem loadFenFull_retained (b : ChessBoard) (p : List (List Char))
    (h : p.length < 6 ∨ pyParseInt (p.getD 5 []) = none) :
    (loadFenFull b p).fullmove_number = b.fullmove_number := by
  unfold loadFenFull
  rcases h with h | h
  · rw [if_neg (by omega)]
  · split
    · rw [h]
    · rfl

/-! ## Inversion lemmas for make_move and undo_move -/

/-- Inversion of a successful `make_move`. -/
theorem make_move_success {b : ChessBoard} {m : String} {b' : ChessBoard}
    (h : make_move b m = (b', true)) :
    ∃ ff fr tf tr p,
      parse_move m = some (ff, fr, tf, tr) ∧
      is_valid_move b ff fr tf tr = true ∧
      get_piece b.board ff fr = some p ∧
      b' = { board := apply_move_grid b.board ff fr tf tr p
             current_side := b.current_side.other
             move_history := b.move_history ++ [m]
             position_history := b.position_history ++ [b.board]
             check_history :=
               (if (get_piece b.board tf tr).isSome = true ∨ p.type = .pawn
                then [] else b.check_history) ++
               [(position_key (apply_move_grid b.board ff fr tf tr p) b.current_side.other,
                 is_king_in_check (apply_move_grid b.board ff fr tf tr p)
                   b.current_side.other)]
             halfmove_clock :=
               if (get_piece b.board tf tr).isSome = true ∨ p.type = .pawn
               then 0 else b.halfmove_clock + 1
             fullmove_number :=
               if b.current_side = .black then b.fullmove_number + 1
               else b.fullmove_number } := by
  unfold make_move at h
  split at h
  · exact absurd (congrArg Prod.snd h) (by simp)
  · rename_i ff fr tf tr hpm
    split at h
    · exact absurd (congrArg Prod.snd h) (by simp)
    · rename_i hv
      split at h
      · exact absurd (congrArg Prod.snd h) (by simp)
      · rename_i p hp
        refine ⟨ff, fr, tf, tr, p, hpm, ?_, hp, ?_⟩
        · simpa using hv
        · exact (congrArg Prod.fst h).symm

/-- Reduction of `undo_move` when both histories are nonempty. -/
theorem undo_move_pop (c : ChessBoard) (mv : String) (g : Grid)
    (h1 : c.move_history.getLast? = some mv)
    (h2 : c.position_history.getLast? = some g) :
    undo_move c =
      ({ board := g
         current_side := c.current_side.other
         move_history := c.move_history.dropLast
         position_history := c.position_history.dropLast
         check_history := c.check_history.dropLast
         halfmove_clock := c.halfmove_clock
         fullmove_number :=
           if c.current_side.other = .black then c.fullmove_number - 1
           else c.fullmove_number }, some mv) := by
  unfold undo_move
  rw [h1, h2]

/-- `undo_move` on a board with no history returns the board unchanged. -/
theorem undo_move_empty (c : ChessBoard)
    (h : c.move_history = [] ∨ c.position_history = []) :
    undo_move c = (c, none) := by
  unfold undo_move
  rcases h with h | h
  · cases hq : c.position_history.getLast? <;> simp [h, hq]
  · cases hq : c.move_history.getLast? <;> simp [h, hq]

/-! ## Claim C2: make_move / undo_move inversion -/

/-- Claim C2, counterexample: after the quiet cannon move h2e2 from the
starting position, `undo_move` does not restore `halfmove_clock` (it stays at
the post-move value 1 instead of returning to 0), so make-then-undo does not
restore both clocks. -/
theorem make_undo_clock_counterexample :
    (make_move initialBoard "h2e2").2 = true ∧
    ((undo_move (make_move initialBoard "h2e2").1).1).halfmove_clock ≠
      initialBoard.halfmove_clock := by
  constructor
  · rfl
  · decide

/-- Claim C2, amended: after any successful `make_move`, `undo_move` restores
the exact prior grid, side to move, and fullmove number, and returns the
undone move; the halfmove clock is not restored (it keeps its post-move
value). `undo_move` returns `None` (with the board unchanged) when no history
exists. -/
theorem make_undo_inverse :
    (∀ b m b', make_move b m = (b', true) →
       (undo_move b').1.board = b.board ∧
       (undo_move b').1.current_side = b.current_side ∧
       (undo_move b').1.fullmove_number = b.fullmove_number ∧
       (undo_move b').2 = some m) ∧
    (∀ c : ChessBoard, c.move_history = [] ∨ c.position_history = [] →
       undo_move c = (c, none)) := by
  constructor
  · intro b m b' h
    obtain ⟨ff, fr, tf, tr, p, hp, hv, hpc, hb'⟩ := make_move_success h
    have h1 : b'.move_history.getLast? = some m := by
      rw [hb']
      exact List.getLast?_concat _
    have h2 : b'.position_history.getLast? = some b.board := by
      rw [hb']
      exact List.getLast?_concat _
    rw [undo_move_pop b' m b.board h1 h2]
    have hside : b'.current_side = b.current_side.other := by
      rw [hb']
    have hfm : b'.fullmove_number =
        (if b.current_side = .black then b.fullmove_number + 1 else b.fullmove_number) := by
      rw [hb']
    refine ⟨rfl, ?_, ?_, rfl⟩
    · simp only [hside, Side.other_other]
    · simp only [hside, Side.other_other, hfm]
      cases hc : b.current_side <;> simp [Side.other]
  · exact undo_move_empty

/-- Claim C2, witness: the amended theorem applied to the cannon move h2e2
from the starting position, and to the empty-history starting board. -/
theorem make_undo_inverse_witness :
    (undo_move (make_move initialBoard "h2e2").1).1.board = initialBoard.board ∧
    undo_move initialBoard = (initialBoard, none) := by
  constructor
  · exact (make_undo_inverse.1 initialBoard "h2e2" (make_move initialBoard "h2e2").1
      (by rfl)).1
  · exact make_undo_inverse.2 initialBoard (Or.inl (by rfl))

/-! ## Claim C9: the history-length invariant -/

/-- Claim C9, counterexample: `copy` resets `position_history` to empty while
keeping `move_history`, so after one move the copy violates
`position_history.length = move_history.length`. -/
theorem copy_history_invariant_counterexample :
    ¬ (((make_move initialBoard "h2e2").1.copy).position_history.length =
       ((make_move initialBoard "h2e2").1.copy).move_history.length) := by
  decide

/-- Claim C9, amended: `position_history.length = move_history.length` holds
for the constructed board and is preserved by `load_fen`, `make_move` and
`undo_move`; `copy`, however, resets `position_history` to the empty list
while keeping `move_history`, so a copy of a board with nonempty move history
violates the invariant. -/
theorem history_lengths_invariant :
    (initialBoard.position_history.length = initialBoard.move_history.length) ∧
    (∀ b fen, b.position_history.length = b.move_history.length →
       ((load_fen b fen).1).position_history.length =
         ((load_fen b fen).1).move_history.length) ∧
    (∀ b m, b.position_history.length = b.move_history.length →
       ((make_move b m).1).position_history.length =
         ((make_move b m).1).move_history.length) ∧
    (∀ b : ChessBoard, b.position_history.length = b.move_history.length →
       ((undo_move b).1).position_history.length =
         ((undo_move b).1).move_history.length) ∧
    (∀ b : ChessBoard, (b.copy).position_history = [] ∧
       (b.copy).move_history = b.move_history) := by
  refine ⟨rfl, ?_, ?_, ?_, fun b => ⟨rfl, rfl⟩⟩
  · intro b fen h
    cases hp : pySplitWs fen.toList with
    | nil =>
      simp only [load_fen, hp]
      exact h
    | cons p0 rest =>
      simp only [load_fen, hp]
      by_cases hrk : (pySplitChar '/' p0).length ≠ 10
      · rw [if_pos hrk]
        rfl
      · rw [if_neg hrk]
        simp only [loadFenFull_position_history, loadFenFull_move_history,
          loadFenHalf_position_history, loadFenHalf_move_history,
          loadFenSide_position_history, loadFenSide_move_history]
        rfl
  · intro b m h
    cases hr : make_move b m with
    | mk b' res =>
      cases res with
      | false =>
        have : b' = b := by
          unfold make_move at hr
          split at hr
          · exact (congrArg Prod.fst hr).symm
          · split at hr
            · exact (congrArg Prod.fst hr).symm
            · split at hr
              · exact (congrArg Prod.fst hr).symm
              · exact absurd (congrArg Prod.snd hr) (by simp)
        rw [this]
        exact h
      | true =>
        obtain ⟨ff, fr, tf, tr, p, hp, hv, hpc, hb'⟩ := make_move_success hr
        rw [hb']
        simp [h]
  · intro b h
    cases h1 : b.move_history.getLast? with
    | none =>
      rw [undo_move_empty b (Or.inl (by simpa using h1))]
      exact h
    | some mv =>
      cases h2 : b.position_history.getLast? with
      | none =>
        rw [undo_move_empty b (Or.inr (by simpa using h2))]
        exact h
      | some g =>
        rw [undo_move_pop b mv g h1 h2]
        simp [h]

/-- Claim C9, witness: the preservation clauses applied after the opening
move h2e2 and on the empty-history starting board. -/
theorem history_lengths_invariant_witness :
    ((make_move initialBoard "h2e2").1).position_history.length =
      ((make_move initialBoard "h2e2").1).move_history.length :=
  history_lengths_invariant.2.2.1 initialBoard "h2e2" (by rfl)

/-! ## Claim C7: load_fen failure conditions -/

/-- Claim C7, counterexample: a FEN with 10 well-formed ranks but the
malformed active-color token "x" is accepted by `load_fen` (the token is
silently treated as Black), contradicting the claim that a malformed
active-color token causes failure. -/
theorem load_fen_malformed_color_accepted :
    (load_fen initialBoard "9/9/9/9/9/9/9/9/9/9 x - - 0 1").2 = true ∧
    (load_fen initialBoard "9/9/9/9/9/9/9/9/9/9 x - - 0 1").1.current_side = .black := by
  constructor
  · rfl
  · rfl

/-- Claim C7, amended: `load_fen` fails exactly when the FEN has no
whitespace-separated tokens or the placement token does not split into
exactly 10 ranks; a malformed active-color token never causes failure (any
second token other than "w" is treated as Black); unparseable or absent
halfmove/fullmove fields never cause failure and the prior values are
silently retained. -/
theorem load_fen_failure_characterization (b : ChessBoard) (fen : String) :
    ((load_fen b fen).2 = false ↔
      (pySplitWs fen.toList = [] ∨
       (pySplitChar '/' ((pySplitWs fen.toList).headD [])).length ≠ 10)) ∧
    ((pySplitWs fen.toList).length < 5 ∨
        pyParseInt ((pySplitWs fen.toList).getD 4 []) = none →
      (load_fen b fen).1.halfmove_clock = b.halfmove_clock) ∧
    ((pySplitWs fen.toList).length < 6 ∨
        pyParseInt ((pySplitWs fen.toList).getD 5 []) = none →
      (load_fen b fen).1.fullmove_number = b.fullmove_number) := by
  cases hp : pySplitWs fen.toList with
  | nil =>
    simp only [load_fen, hp]
    exact ⟨by simp, fun _ => by trivial, fun _ => by trivial⟩
  | cons p0 rest =>
    simp only [load_fen, hp]
    by_cases hrk : (pySplitChar '/' p0).length ≠ 10
    · rw [if_pos hrk]
      refine ⟨by simp [hrk], fun _ => rfl, fun _ => rfl⟩
    · rw [if_neg hrk]
      refine ⟨by simp [hrk], ?_, ?_⟩
      · intro h
        rw [loadFenFull_halfmove, loadFenHalf_retained _ _ (by simpa using h),
          loadFenSide_halfmove]
        rfl
      · intro h
        rw [loadFenFull_retained _ _ (by simpa using h), loadFenHalf_fullmove,
          loadFenSide_fullmove]
        rfl

/-- Claim C7, witness: a FEN whose clock fields are unparseable loads
successfully and retains the prior clock values. -/
theorem load_fen_failure_characterization_witness :
    (load_fen initialBoard "9/9/9/9/9/9/9/9/9/9 w - - zz qq").1.halfmove_clock =
      initialBoard.halfmove_clock ∧
    (load_fen initialBoard "9/9/9/9/9/9/9/9/9/9 w - - zz qq").1.fullmove_number =
      initialBoard.fullmove_number := by
  constructor
  · exact (load_fen_failure_characterization initialBoard
      "9/9/9/9/9/9/9/9/9/9 w - - zz qq").2.1 (Or.inr (by rfl))
  · exact (load_fen_failure_characterization initialBoard
      "9/9/9/9/9/9/9/9/9/9 w - - zz qq").2.2 (Or.inr (by rfl))

/-! ## Claim C5: FEN round trip — character and list facts -/

theorem from_char_to_char (p : Piece) : Piece.from_char p.to_char = some p := by
  obtain ⟨t, s⟩ := p
  cases t <;> cases s <;> rfl

theorem to_char_not_digit (p : Piece) : p.to_char.isDigit = false := by
  obtain ⟨t, s⟩ := p
  cases t <;> cases s <;> rfl

theorem to_char_good (p : Piece) : p.to_char.isWhitespace = false ∧ p.to_char ≠ '/' := by
  obtain ⟨t, s⟩ := p
  cases t <;> cases s <;> exact ⟨rfl, by decide⟩

theorem digitChar_isDigit {n : Nat} (h : n ≤ 9) : (digitChar n).isDigit = true := by
  interval_cases n <;> decide

theorem digitChar_val {n : Nat} (h : n ≤ 9) : (digitChar n).toNat - 48 = n := by
  interval_cases n <;> decide

theorem digitChar_good {n : Nat} (h : n ≤ 9) :
    (digitChar n).isWhitespace = false ∧ digitChar n ≠ '/' := by
  interval_cases n <;> exact ⟨rfl, by decide⟩

theorem drop_set_eq_cons {α : Type} (a : α) :
    ∀ (l : List α) (n : Nat), n < l.length → (l.set n a).drop n = a :: l.drop (n + 1)
  | [], n, h => by simp at h
  | x :: xs, 0, _ => by simp
  | x :: xs, n + 1, h => by
      simp only [List.set, List.drop_succ_cons]
      exact drop_set_eq_cons a xs n (by simpa using h)

theorem set_replicate_none (v : Option Piece) :
    ∀ (m k : Nat), k < m →
      (List.replicate m (none : Option Piece)).set k v =
        List.replicate k none ++ v :: List.replicate (m - k - 1) none
  | m + 1, 0, _ => by simp [List.replicate_succ]
  | m + 1, k + 1, h => by
      simp only [List.replicate_succ, List.set, List.cons_append]
      rw [set_replicate_none v m k (by omega)]
      have hmk : m + 1 - (k + 1) - 1 = m - k - 1 := by omega
      rw [hmk]

/-! ### Split/join inverses -/

theorem splitCharAux_no_sep (sep : Char) :
    ∀ (l acc : List Char), sep ∉ l → splitCharAux sep l acc = [acc.reverse ++ l]
  | [], acc, _ => by simp [splitCharAux]
  | c :: rest, acc, h => by
      have hc : ¬ c = sep := fun hc => h (hc ▸ List.mem_cons_self c rest)
      rw [splitCharAux, if_neg hc,
        splitCharAux_no_sep sep rest (c :: acc) (fun hm => h (List.mem_cons_of_mem c hm))]
      simp

theorem splitCharAux_sep (sep : Char) :
    ∀ (p rest acc : List Char), sep ∉ p →
      splitCharAux sep (p ++ sep :: rest) acc =
        (acc.reverse ++ p) :: splitCharAux sep rest []
  | [], rest, acc, _ => by
      simp [splitCharAux]
  | c :: p', rest, acc, h => by
      have hc : ¬ c = sep := fun hc => h (hc ▸ List.mem_cons_self c p')
      rw [List.cons_append, splitCharAux, if_neg hc,
        splitCharAux_sep sep p' rest (c :: acc) (fun hm => h (List.mem_cons_of_mem c hm))]
      simp

theorem pySplitChar_joinChar (sep : Char) :
    ∀ (parts : List (List Char)), parts ≠ [] →
      (∀ part ∈ parts, sep ∉ part) →
      pySplitChar sep (joinChar sep parts) = parts
  | [], h, _ => absurd rfl h
  | [p], _, hs => by
      unfold pySplitChar joinChar
      rw [splitCharAux_no_sep sep p [] (hs p (List.mem_singleton.mpr rfl))]
      rfl
  | p :: q :: ps, _, hs => by
      unfold pySplitChar joinChar
      rw [splitCharAux_sep sep p (joinChar sep (q :: ps)) []
        (hs p (List.mem_cons_self p (q :: ps)))]
      simp only [List.reverse_nil, List.nil_append]
      have := pySplitChar_joinChar sep (q :: ps) (by simp)
        (fun part hm => hs part (List.mem_cons_of_mem p hm))
      unfold pySplitChar at this
      rw [this]

theorem splitWsAux_no_ws :
    ∀ (l acc : List Char), (∀ c ∈ l, c.isWhitespace = false) → acc ≠ [] ∨ l ≠ [] →
      splitWsAux l acc = [acc.reverse ++ l]
  | [], acc, _, hne => by
      rcases hne with hne | hne
      · simp [splitWsAux, hne]
      · exact absurd rfl hne
  | c :: rest, acc, h, _ => by
      have hc : c.isWhitespace = false := h c (List.mem_cons_self c rest)
      rw [splitWsAux, if_neg (by simp [hc]),
        splitWsAux_no_ws rest (c :: acc) (fun d hd => h d (List.mem_cons_of_mem c hd))
          (Or.inl (by simp))]
      simp

theorem splitWsAux_sep :
    ∀ (p rest acc : List Char), (∀ c ∈ p, c.isWhitespace = false) →
      acc.reverse ++ p ≠ [] →
      splitWsAux (p ++ ' ' :: rest) acc =
        (acc.reverse ++ p) :: splitWsAux rest []
  | [], rest, acc, _, hne => by
      have hacc : ¬ acc = [] := by
        intro h
        exact hne (by simp [h])
      simp only [List.nil_append, splitWsAux, List.append_nil]
      rw [if_pos (by decide), if_neg hacc]
  | c :: p', rest, acc, h, _ => by
      have hc : c.isWhitespace = false := h c (List.mem_cons_self c p')
      rw [List.cons_append, splitWsAux, if_neg (by simp [hc]),
        splitWsAux_sep p' rest (c :: acc) (fun d hd => h d (List.mem_cons_of_mem c hd))
          (by simp)]
      simp

theorem pySplitWs_joinChar :
    ∀ (parts : List (List Char)), parts ≠ [] →
      (∀ part ∈ parts, part ≠ [] ∧ ∀ c ∈ part, c.isWhitespace = false) →
      pySplitWs (joinChar ' ' parts) = parts
  | [], h, _ => absurd rfl h
  | [p], _, hs => by
      obtain ⟨hne, hws⟩ := hs p (List.mem_singleton.mpr rfl)
      unfold pySplitWs joinChar
      rw [splitWsAux_no_ws p [] hws (Or.inr hne)]
      rfl
  | p :: q :: ps, _, hs => by
      obtain ⟨hne, hws⟩ := hs p (List.mem_cons_self p (q :: ps))
      unfold pySplitWs joinChar
      rw [splitWsAux_sep p (joinChar ' ' (q :: ps)) [] hws (by simpa using hne)]
      simp only [List.reverse_nil, List.nil_append]
      have := pySplitWs_joinChar (q :: ps) (by simp)
        (fun part hm => hs part (List.mem_cons_of_mem p hm))
      unfold pySplitWs at this
      rw [this]

/-! ### Round trip of one rank -/

theorem parseRankAux_digit (c : Char) (rest : List Char) (fi : Nat) (row : Row)
    (h : c.isDigit = true) :
    parseRankAux (c :: rest) fi row = parseRankAux rest (fi + (c.toNat - 48)) row := by
  simp only [parseRankAux, h, if_true]

theorem parseRankAux_piece (c : Char) (p : Piece) (rest : List Char) (fi : Nat) (row : Row)
    (hd : c.isDigit = false) (hc : Piece.from_char c = some p) :
    parseRankAux (c :: rest) fi row =
      parseRankAux rest (fi + 1) (if fi < 9 then row.set fi (some p) else row) := by
  simp only [parseRankAux, hd, Bool.false_eq_true, if_false, hc]

theorem row_set_shape (dp : Row) (fi ec : Nat) (p : Piece)
    (hdp : dp.length = fi) (hlt : fi + ec < 9) :
    (dp ++ List.replicate (9 - fi) none).set (fi + ec) (some p) =
      (dp ++ List.replicate ec none ++ [some p]) ++
        List.replicate (9 - (fi + ec + 1)) none := by
  rw [List.set_append, if_neg (by omega), hdp]
  have he : fi + ec - fi = ec := by omega
  rw [he, set_replicate_none (some p) (9 - fi) ec (by omega)]
  have h1 : 9 - fi - ec - 1 = 9 - (fi + ec + 1) := by omega
  rw [h1]
  simp [List.append_assoc]

/-- Parsing the serialization of the remaining cells of a rank writes exactly
those cells back: the central invariant of the FEN rank round trip. -/
theorem parse_ser_rank :
    ∀ (rest : Row) (ec fi : Nat) (dp : Row),
      dp.length = fi → fi + ec + rest.length = 9 →
      parseRankAux (serRankAux rest ec) fi (dp ++ List.replicate (9 - fi) none) =
        (dp ++ List.replicate ec none) ++ rest
  | [], ec, fi, dp, hdp, hlen => by
      have hlen9 : fi + ec = 9 := by simpa using hlen
      simp only [serRankAux]
      by_cases hec : 0 < ec
      · rw [if_pos hec,
          parseRankAux_digit _ _ _ _ (digitChar_isDigit (show ec ≤ 9 by omega)),
          digitChar_val (show ec ≤ 9 by omega)]
        simp only [parseRankAux]
        have h9 : 9 - fi = ec := by omega
        rw [h9]
        simp
      · rw [if_neg hec]
        simp only [parseRankAux]
        have hec0 : ec = 0 := by omega
        have h9 : 9 - fi = 0 := by omega
        rw [hec0, h9]
        simp
  | none :: r', ec, fi, dp, hdp, hlen => by
      simp only [serRankAux]
      rw [parse_ser_rank r' (ec + 1) fi dp hdp (by simp at hlen; omega)]
      simp [List.replicate_succ', List.append_assoc]
  | some p :: r', ec, fi, dp, hdp, hlen => by
      have hlt : fi + ec < 9 := by simp at hlen; omega
      simp only [serRankAux]
      by_cases hec : 0 < ec
      · rw [if_pos hec, List.singleton_append,
          parseRankAux_digit _ _ _ _ (digitChar_isDigit (show ec ≤ 9 by omega)),
          digitChar_val (show ec ≤ 9 by omega),
          parseRankAux_piece _ p _ _ _ (to_char_not_digit p) (from_char_to_char p),
          if_pos hlt, row_set_shape dp fi ec p hdp hlt,
          parse_ser_rank r' 0 (fi + ec + 1) (dp ++ List.replicate ec none ++ [some p])
            (by simp [hdp]; try omega) (by simp at hlen ⊢; omega)]
        simp [List.append_assoc]
      · have hec0 : ec = 0 := by omega
        subst hec0
        rw [if_neg hec, List.nil_append,
          parseRankAux_piece _ p _ _ _ (to_char_not_digit p) (from_char_to_char p),
          if_pos (by omega)]
        have hset : (dp ++ List.replicate (9 - fi) none).set fi (some p) =
            (dp ++ List.replicate 0 none ++ [some p]) ++
              List.replicate (9 - (fi + 0 + 1)) none := by
          have := row_set_shape dp fi 0 p hdp (by omega)
          simpa using this
        rw [hset,
          parse_ser_rank r' 0 (fi + 0 + 1) (dp ++ List.replicate 0 none ++ [some p])
            (by simp [hdp]; try omega) (by simp at hlen ⊢; omega)]
        simp [List.append_assoc]

/-! ### Characters appearing in FEN tokens -/

theorem serRankAux_good :
    ∀ (rest : Row) (ec : Nat), ec + rest.length ≤ 9 →
      ∀ c ∈ serRankAux rest ec, c.isWhitespace = false ∧ c ≠ '/'
  | [], ec, hle => by
      simp only [serRankAux]
      split
      · intro c hc
        rw [List.mem_singleton] at hc
        subst hc
        exact digitChar_good (by simpa using hle)
      · intro c hc
        simp at hc
  | none :: r', ec, hle => by
      simp only [serRankAux]
      exact serRankAux_good r' (ec + 1) (by simp at hle ⊢; omega)
  | some p :: r', ec, hle => by
      simp only [serRankAux]
      intro c hc
      rw [List.mem_append] at hc
      rcases hc with hc | hc
      · split at hc
        · rw [List.mem_singleton] at hc
          subst hc
          exact digitChar_good (by simp at hle; omega)
        · simp at hc
      · rw [List.mem_cons] at hc
        rcases hc with hc | hc
        · subst hc
          exact to_char_good p
        · exact serRankAux_good r' 0 (by simp at hle; omega) c hc

theorem serRankAux_ne_nil :
    ∀ (rest : Row) (ec : Nat), 0 < ec + rest.length → serRankAux rest ec ≠ []
  | [], ec, hpos => by
      simp only [serRankAux]
      rw [if_pos (by simpa using hpos)]
      simp
  | none :: r', ec, _ => by
      simp only [serRankAux]
      exact serRankAux_ne_nil r' (ec + 1) (by omega)
  | some p :: r', ec, _ => by
      simp only [serRankAux]
      split <;> simp

theorem serRank_good (r : Row) (h : r.length ≤ 9) :
    ∀ c ∈ serRank r, c.isWhitespace = false ∧ c ≠ '/' :=
  serRankAux_good r 0 (by omega)

theorem serRank_ne_nil (r : Row) (h : 0 < r.length) : serRank r ≠ [] :=
  serRankAux_ne_nil r 0 (by omega)

theorem joinChar_good (sep : Char) (hsep : sep.isWhitespace = false) :
    ∀ (parts : List (List Char)),
      (∀ part ∈ parts, ∀ c ∈ part, c.isWhitespace = false) →
      ∀ c ∈ joinChar sep parts, c.isWhitespace = false
  | [], _, c, hc => by simp [joinChar] at hc
  | [p], hp, c, hc => by
      simp only [joinChar] at hc
      exact hp p (by simp) c hc
  | p :: q :: ps, hp, c, hc => by
      simp only [joinChar, List.mem_append, List.mem_cons] at hc
      rcases hc with hc | hc | hc
      · exact hp p (by simp) c hc
      · subst hc
        exact hsep
      · exact joinChar_good sep hsep (q :: ps)
          (fun part hm => hp part (List.mem_cons_of_mem p hm)) c hc

theorem joinChar_slash_ne_nil (parts : List (List Char)) (h : parts ≠ [])
    (h1 : ∀ part ∈ parts, part ≠ []) : joinChar '/' parts ≠ [] := by
  match parts with
  | [] => exact absurd rfl h
  | [p] =>
      simpa [joinChar] using h1 p (by simp)
  | p :: q :: ps =>
      simp only [joinChar]
      intro hc
      rw [List.append_eq_nil] at hc
      exact List.cons_ne_nil _ _ hc.2

theorem natToChars_good (n : Nat) :
    ∀ c ∈ natToChars n, c.isWhitespace = false := by
  induction n using Nat.strong_induction_on with
  | _ n ih =>
    unfold natToChars
    split
    · intro c hc
      rw [List.mem_singleton] at hc
      subst hc
      exact (digitChar_good (by omega)).1
    · intro c hc
      rw [List.mem_append] at hc
      rcases hc with hc | hc
      · exact ih (n / 10) (Nat.div_lt_self (by omega) (by omega)) c hc
      · rw [List.mem_singleton] at hc
        subst hc
        exact (digitChar_good (by omega)).1

theorem natToChars_ne_nil (n : Nat) : natToChars n ≠ [] := by
  unfold natToChars
  split
  · simp
  · simp

theorem intToChars_good (i : Int) :
    (∀ c ∈ intToChars i, c.isWhitespace = false) ∧ intToChars i ≠ [] := by
  unfold intToChars
  split
  · refine ⟨?_, by simp⟩
    intro c hc
    rw [List.mem_cons] at hc
    rcases hc with hc | hc
    · subst hc
      rfl
    · exact natToChars_good _ c hc
  · exact ⟨natToChars_good _, natToChars_ne_nil _⟩

/-! ### Round trip of the whole placement -/

theorem emptyGrid_getD {j : Nat} (h : j < 10) :
    emptyGrid.getD j [] = List.replicate 9 none := by
  interval_cases j <;> rfl

/-- One rank string round-trips into the row it came from, starting from a
cleared row. -/
theorem parse_ser_row (r : Row) (h : r.length = 9) :
    parseRankAux (serRank r) 0 (List.replicate 9 none) = r := by
  have := parse_ser_rank r 0 0 [] rfl (by omega)
  simpa using this

theorem loadRanks_round :
    ∀ (rsuffix : List Row) (idx : Nat) (g : Grid),
      idx + rsuffix.length = 10 → g.length = 10 →
      (∀ r ∈ rsuffix, r.length = 9) →
      (∀ j, j < rsuffix.length → g.getD j [] = List.replicate 9 none) →
      loadRanks g (rsuffix.map serRank) idx = rsuffix.reverse ++ g.drop rsuffix.length
  | [], idx, g, _, _, _, _ => by
      simp [loadRanks]
  | r :: rest, idx, g, hidx, hg, hr9, hclear => by
      have hrr : 10 - 1 - idx = rest.length := by simp at hidx; omega
      simp only [List.map_cons, loadRanks, hrr]
      rw [hclear rest.length (by simp),
        parse_ser_row r (hr9 r (List.mem_cons_self r rest))]
      rw [loadRanks_round rest (idx + 1) (g.set rest.length r)
        (by simp at hidx ⊢; omega) (by simp [hg])
        (fun r' hm => hr9 r' (List.mem_cons_of_mem r hm))
        (fun j hj => by
          rw [List.getD_eq_getElem?_getD, List.getElem?_set_ne (by omega),
            ← List.getD_eq_getElem?_getD]
          exact hclear j (by simp; omega))]
      rw [drop_set_eq_cons r g rest.length (by omega)]
      simp

/-! ### The FEN round-trip theorem -/

/-- The placement token splits back into the ten serialized rank strings. -/
theorem placement_split (b : ChessBoard)
    (h10 : b.board.length = 10) (h9 : ∀ r ∈ b.board, r.length = 9) :
    pySplitChar '/' (joinChar '/' (b.board.reverse.map serRank)) =
      b.board.reverse.map serRank := by
  apply pySplitChar_joinChar
  · intro hc
    rw [List.map_eq_nil_iff, List.reverse_eq_nil_iff] at hc
    rw [hc] at h10
    simp at h10
  · intro part hm
    rw [List.mem_map] at hm
    obtain ⟨r, hr, rfl⟩ := hm
    intro hsl
    exact (serRank_good r (by rw [h9 r (List.mem_reverse.mp hr)]) '/' hsl).2 rfl

/-- Claim C5: for every well-formed position (10 ranks of 9 files, which every
reachable board satisfies), loading the FEN produced by `to_fen` succeeds and
reproduces the exact piece placement and side to move, on any target board. -/
theorem fen_round_trip (b c : ChessBoard)
    (h10 : b.board.length = 10) (h9 : ∀ r ∈ b.board, r.length = 9) :
    (load_fen c (to_fen b)).2 = true ∧
    (load_fen c (to_fen b)).1.board = b.board ∧
    (load_fen c (to_fen b)).1.current_side = b.current_side := by
  have hsplit : pySplitWs (to_fen b).toList =
      [joinChar '/' (b.board.reverse.map serRank),
       [if b.current_side = .red then 'w' else 'b'],
       ['-'], ['-'], intToChars b.halfmove_clock, intToChars b.fullmove_number] := by
    apply pySplitWs_joinChar _ (by simp)
    intro part hm
    simp only [List.mem_cons, List.not_mem_nil, or_false] at hm
    rcases hm with rfl | rfl | rfl | rfl | rfl | rfl
    · refine ⟨?_, ?_⟩
      · apply joinChar_slash_ne_nil
        · intro hc
          rw [List.map_eq_nil_iff, List.reverse_eq_nil_iff] at hc
          rw [hc] at h10
          simp at h10
        · intro part hm
          rw [List.mem_map] at hm
          obtain ⟨r, hr, rfl⟩ := hm
          exact serRank_ne_nil r (by rw [h9 r (List.mem_reverse.mp hr)]; omega)
      · apply joinChar_good '/' rfl
        intro part hm
        rw [List.mem_map] at hm
        obtain ⟨r, hr, rfl⟩ := hm
        exact fun ch hch => (serRank_good r (by rw [h9 r (List.mem_reverse.mp hr)]) ch hch).1
    · constructor
      · split <;> simp
      · intro ch hch
        split at hch <;> (rw [List.mem_singleton] at hch; subst hch; rfl)
    · exact ⟨by simp, by intro ch hch; rw [List.mem_singleton] at hch; subst hch; rfl⟩
    · exact ⟨by simp, by intro ch hch; rw [List.mem_singleton] at hch; subst hch; rfl⟩
    · exact ⟨(intToChars_good _).2, (intToChars_good _).1⟩
    · exact ⟨(intToChars_good _).2, (intToChars_good _).1⟩
  have hlen10 : (pySplitChar '/' (joinChar '/' (b.board.reverse.map serRank))).length = 10 := by
    rw [placement_split b h10 h9]
    simp [h10]
  have hboard : loadRanks emptyGrid (b.board.reverse.map serRank) 0 = b.board := by
    rw [loadRanks_round b.board.reverse 0 emptyGrid (by simp [h10]) (by simp [emptyGrid])
      (fun r hm => h9 r (List.mem_reverse.mp hm))
      (fun j hj => emptyGrid_getD (by simp [h10] at hj; omega))]
    rw [List.reverse_reverse]
    have hdrop : emptyGrid.drop b.board.reverse.length = [] := by
      apply List.drop_eq_nil_of_le
      simp [emptyGrid, h10]
    rw [hdrop, List.append_nil]
  simp only [load_fen, hsplit]
  rw [if_neg (by rw [hlen10]; omega)]
  refine ⟨rfl, ?_, ?_⟩
  · simp only [loadFenFull_board, loadFenHalf_board, loadFenSide_board]
    rw [show (pySplitChar '/' (joinChar '/' (b.board.reverse.map serRank))) =
      b.board.reverse.map serRank from placement_split b h10 h9]
    exact hboard
  · simp only [loadFenFull_side, loadFenHalf_side, loadFenSide]
    cases hs : b.current_side
    · rw [if_pos (by decide)]
    · rw [if_neg (by decide)]

/-- Claim C5, witness: the round trip on the starting position. -/
theorem fen_round_trip_witness :
    (load_fen initialBoard (to_fen initialBoard)).1.board = initialBoard.board ∧
    (load_fen initialBoard (to_fen initialBoard)).1.current_side =
      initialBoard.current_side :=
  ⟨(fen_round_trip initialBoard initialBoard (by decide) (by decide)).2.1,
   (fen_round_trip initialBoard initialBoard (by decide) (by decide)).2.2⟩

/-! ## Claim C3: agreement of the two legal-move enumerations -/

theorem fileChar_inj {x y : Int} (hx0 : 0 ≤ x) (hx9 : x < 9) (hy0 : 0 ≤ y) (hy9 : y < 9)
    (h : fileChar x = fileChar y) : x = y := by
  have hfin : ∀ a b : Fin 9, Char.ofNat (97 + a.val) = Char.ofNat (97 + b.val) → a = b := by
    decide
  have hv := hfin ⟨x.toNat, by omega⟩ ⟨y.toNat, by omega⟩ h
  have := congrArg Fin.val hv
  simp only at this
  omega

theorem rankChar_inj {x y : Int} (hx0 : 0 ≤ x) (hx9 : x < 10) (hy0 : 0 ≤ y) (hy9 : y < 10)
    (h : rankChar x = rankChar y) : x = y := by
  have hfin : ∀ a b : Fin 10, Char.ofNat (48 + a.val) = Char.ofNat (48 + b.val) → a = b := by
    decide
  have hv := hfin ⟨x.toNat, by omega⟩ ⟨y.toNat, by omega⟩ h
  have := congrArg Fin.val hv
  simp only at this
  omega

theorem format_move_inj {a b c d e f g h : Int}
    (ha : 0 ≤ a ∧ a < 9) (hb : 0 ≤ b ∧ b < 10) (hc : 0 ≤ c ∧ c < 9) (hd : 0 ≤ d ∧ d < 10)
    (he : 0 ≤ e ∧ e < 9) (hf : 0 ≤ f ∧ f < 10) (hg : 0 ≤ g ∧ g < 9) (hh : 0 ≤ h ∧ h < 10)
    (heq : format_move a b c d = format_move e f g h) :
    a = e ∧ b = f ∧ c = g ∧ d = h := by
  unfold format_move at heq
  have hl := congrArg String.data heq
  simp only [List.cons.injEq, and_true] at hl
  obtain ⟨h1, h2, h3, h4⟩ := hl
  exact ⟨fileChar_inj ha.1 ha.2 he.1 he.2 h1, rankChar_inj hb.1 hb.2 hf.1 hf.2 h2,
    fileChar_inj hc.1 hc.2 hg.1 hg.2 h3, rankChar_inj hd.1 hd.2 hh.1 hh.2 h4⟩

/-- A true `is_valid_move` implies a piece of the side to move at the origin,
no friendly piece on the target, and a satisfied movement-shape rule. -/
theorem is_valid_move_extract (b : ChessBoard) (ff fr tf tr : Int) (p : Piece)
    (hp : get_piece b.board ff fr = some p)
    (hv : is_valid_move b ff fr tf tr = true) :
    p.side = b.current_side ∧
    (match get_piece b.board tf tr with
     | some t => decide (t.side = p.side)
     | none => false) = false ∧
    is_valid_piece_move b.board p ff fr tf tr = true := by
  rw [is_valid_move_of_piece b ff fr tf tr p hp] at hv
  by_cases h1 : p.side ≠ b.current_side
  · rw [if_pos h1] at hv
    exact Bool.noConfusion hv
  rw [if_neg h1] at hv
  by_cases h2 : (match get_piece b.board tf tr with
                 | some t => decide (t.side = p.side)
                 | none => false) = true
  · rw [if_pos h2] at hv
    exact Bool.noConfusion hv
  rw [if_neg h2] at hv
  by_cases h3 : ¬ is_valid_piece_move b.board p ff fr tf tr = true
  · rw [if_pos h3] at hv
    exact Bool.noConfusion hv
  · exact ⟨not_not.mp h1, by simpa using h2, not_not.mp h3⟩

/-- A true `is_valid_move` requires a piece at the origin. -/
theorem is_valid_move_piece_exists (b : ChessBoard) (ff fr tf tr : Int)
    (hv : is_valid_move b ff fr tf tr = true) :
    ∃ p, get_piece b.board ff fr = some p := by
  cases hg : get_piece b.board ff fr with
  | none =>
    unfold is_valid_move at hv
    rw [hg] at hv
    exact Bool.noConfusion hv
  | some p => exact ⟨p, rfl⟩

/-- The move cannot stay on its own square (the friendly-target test fails
there). -/
theorem is_valid_move_ne_self (b : ChessBoard) (ff fr tf tr : Int) (p : Piece)
    (hp : get_piece b.board ff fr = some p)
    (hv : is_valid_move b ff fr tf tr = true) :
    ¬ (tf = ff ∧ tr = fr) := by
  rintro ⟨rfl, rfl⟩
  obtain ⟨_, htgt, _⟩ := is_valid_move_extract b tf tr tf tr p hp hv
  rw [hp] at htgt
  simp at htgt

/-- Membership in the Chariot/Cannon scan-line candidates, for an on-board
destination. -/
theorem mem_scanTargets {f1 r1 tf tr : Int}
    (htf0 : 0 ≤ tf) (htf9 : tf < 9) (htr0 : 0 ≤ tr) (htr10 : tr < 10) :
    (tf, tr) ∈ scanTargets f1 r1 ↔
      ((¬ tf = f1 ∧ tr = r1) ∨ (tf = f1 ∧ ¬ tr = r1)) := by
  unfold scanTargets
  rw [List.mem_append, List.mem_filterMap, List.mem_filterMap]
  constructor
  · rintro (⟨i, hi, heq⟩ | ⟨i, hi, heq⟩)
    · split at heq
      · rename_i hne
        rw [Option.some.injEq, Prod.mk.injEq] at heq
        exact Or.inl ⟨heq.1 ▸ hne, heq.2.symm⟩
      · exact absurd heq (by simp)
    · split at heq
      · rename_i hne
        rw [Option.some.injEq, Prod.mk.injEq] at heq
        exact Or.inr ⟨heq.1.symm, heq.2 ▸ hne⟩
      · exact absurd heq (by simp)
  · rintro (⟨hne, rfl⟩ | ⟨rfl, hne⟩)
    · refine Or.inl ⟨tf.toNat, ?_, ?_⟩
      · have h9 : tf.toNat < 9 := by omega
        exact List.mem_range.mpr h9
      · rw [Int.toNat_of_nonneg htf0, if_pos hne]
    · refine Or.inr ⟨tr.toNat, ?_, ?_⟩
      · have h10 : tr.toNat < 10 := by omega
        exact List.mem_range.mpr h10
      · rw [Int.toNat_of_nonneg htr0, if_pos hne]

set_option maxHeartbeats 2000000 in
/-- Completeness of the generator's candidate targets: every destination
accepted by `is_valid_move` appears among the piece-specific candidates. -/
theorem valid_mem_pieceTargets (b : ChessBoard) (ff fr tf tr : Int) (p : Piece)
    (hp : get_piece b.board ff fr = some p)
    (hv : is_valid_move b ff fr tf tr = true)
    (htf : 0 ≤ tf) (htf9 : tf < 9) (htr : 0 ≤ tr) (htr10 : tr < 10) :
    (tf, tr) ∈ pieceTargets b p.type ff fr := by
  obtain ⟨hside, htgt, hshape⟩ := is_valid_move_extract b ff fr tf tr p hp hv
  have hne := is_valid_move_ne_self b ff fr tf tr p hp hv
  clear hv htgt hp
  obtain ⟨pt, ps⟩ := p
  simp only at hside
  cases pt
  case king =>
    simp only [is_valid_piece_move] at hshape
    split at hshape
    · exact Bool.noConfusion hshape
    · rw [decide_eq_true_eq] at hshape
      simp only [pieceTargets, List.mem_cons, Prod.mk.injEq, List.not_mem_nil, or_false]
      omega
  case advisor =>
    simp only [is_valid_piece_move] at hshape
    split at hshape
    · exact Bool.noConfusion hshape
    · rw [decide_eq_true_eq] at hshape
      simp only [pieceTargets, List.mem_cons, Prod.mk.injEq, List.not_mem_nil, or_false]
      omega
  case bishop =>
    simp only [is_valid_piece_move] at hshape
    split at hshape
    · exact Bool.noConfusion hshape
    · split at hshape
      · exact Bool.noConfusion hshape
      · rename_i h2
        have hnum := not_not.mp h2
        simp only [pieceTargets, List.mem_cons, Prod.mk.injEq, List.not_mem_nil, or_false]
        omega
  case knight =>
    simp only [is_valid_piece_move] at hshape
    split at hshape
    · exact Bool.noConfusion hshape
    · rename_i h2
      have hnum := not_not.mp h2
      simp only [pieceTargets, List.mem_cons, Prod.mk.injEq, List.not_mem_nil, or_false]
      omega
  case rook =>
    simp only [is_valid_piece_move] at hshape
    split at hshape
    · exact Bool.noConfusion hshape
    · rename_i h2
      show (tf, tr) ∈ scanTargets ff fr
      rw [mem_scanTargets htf htf9 htr htr10]
      omega
  case cannon =>
    simp only [is_valid_piece_move] at hshape
    split at hshape
    · exact Bool.noConfusion hshape
    · rename_i h2
      show (tf, tr) ∈ scanTargets ff fr
      rw [mem_scanTargets htf htf9 htr htr10]
      omega
  case pawn =>
    cases ps
    case red =>
      simp only [is_valid_piece_move] at hshape
      rw [Bool.or_eq_true, Bool.and_eq_true] at hshape
      simp only [decide_eq_true_eq] at hshape
      have hcur : b.current_side = .red := hside.symm
      simp only [pieceTargets, hcur]
      split
      · rcases hshape with hfwd | ⟨hsw, hcr5⟩ <;>
          · simp only [List.mem_cons, Prod.mk.injEq, List.not_mem_nil, or_false,
              reduceIte]
            omega
      · rename_i hcr
        simp only [not_or, not_and] at hcr
        have hcr4 : ¬ 4 < fr := by
          intro hgt
          exact hcr.1 (by simp) hgt
        rcases hshape with hfwd | ⟨hsw, hcr5⟩ <;>
          · simp only [List.mem_cons, Prod.mk.injEq, List.not_mem_nil, or_false,
              reduceIte]
            omega
    case black =>
      simp only [is_valid_piece_move] at hshape
      rw [Bool.or_eq_true, Bool.and_eq_true] at hshape
      simp only [decide_eq_true_eq] at hshape
      have hcur : b.current_side = .black := hside.symm
      simp only [pieceTargets, hcur]
      split
      · rcases hshape with hfwd | ⟨hsw, hcr5⟩ <;>
          · simp only [List.mem_cons, Prod.mk.injEq, List.not_mem_nil, or_false]
            rw [show (if Side.black = Side.red then (1 : Int) else -1) = -1 from
              if_neg (by decide)]
            omega
      · rename_i hcr
        simp only [not_or, not_and] at hcr
        have hcr4 : ¬ fr < 5 := by
          intro hlt
          exact hcr.2 (by simp) hlt
        rcases hshape with hfwd | ⟨hsw, hcr5⟩ <;>
          · simp only [List.mem_cons, Prod.mk.injEq, List.not_mem_nil, or_false]
            rw [show (if Side.black = Side.red then (1 : Int) else -1) = -1 from
              if_neg (by decide)]
            omega

/-- `get_piece` agrees with the raw cell read on in-range coordinates. -/
theorem get_piece_eq_getCell (g : Grid) (f r : Int)
    (h : 0 ≤ f ∧ f < 9 ∧ 0 ≤ r ∧ r < 10) :
    get_piece g f r = getCell g r.toNat f.toNat := by
  unfold get_piece
  rw [if_pos h]

/-- Membership in the brute-force enumeration is exactly `is_valid_move`. -/
theorem mem_get_legal_moves (b : ChessBoard) (ff fr tf tr : Int)
    (htf0 : 0 ≤ tf) (htf9 : tf < 9) (htr0 : 0 ≤ tr) (htr10 : tr < 10) :
    ((tf, tr) ∈ get_legal_moves b ff fr ↔ is_valid_move b ff fr tf tr = true) := by
  unfold get_legal_moves
  rw [List.mem_flatMap]
  constructor
  · rintro ⟨i, hi, hmem⟩
    rw [List.mem_filterMap] at hmem
    obtain ⟨j, hj, heq⟩ := hmem
    split at heq
    · rename_i hval
      rw [Option.some.injEq, Prod.mk.injEq] at heq
      rw [← heq.1, ← heq.2]
      exact hval
    · exact absurd heq (by simp)
  · intro hv
    refine ⟨tf.toNat, ?_, ?_⟩
    · have h9 : tf.toNat < 9 := by omega
      exact List.mem_range.mpr h9
    · rw [List.mem_filterMap]
      refine ⟨tr.toNat, ?_, ?_⟩
      · have h10 : tr.toNat < 10 := by omega
        exact List.mem_range.mpr h10
      · rw [Int.toNat_of_nonneg htf0, Int.toNat_of_nonneg htr0, if_pos hv]

/-- Membership in the generator enumeration, characterized. -/
theorem mem_get_all_legal_moves (b : ChessBoard) (s : String) :
    s ∈ get_all_legal_moves b ↔
      ∃ r1, r1 < 10 ∧ ∃ f1, f1 < 9 ∧ ∃ piece,
        getCell b.board r1 f1 = some piece ∧
        piece.side = b.current_side ∧
        ∃ t, t ∈ pieceTargets b piece.type (f1 : Int) (r1 : Int) ∧
          (0 ≤ t.1 ∧ t.1 < 9 ∧ 0 ≤ t.2 ∧ t.2 < 10) ∧
          is_valid_move b (f1 : Int) (r1 : Int) t.1 t.2 = true ∧
          s = format_move (f1 : Int) (r1 : Int) t.1 t.2 := by
  unfold get_all_legal_moves
  rw [List.mem_flatMap]
  constructor
  · rintro ⟨r1, hr1, hmem⟩
    rw [List.mem_range] at hr1
    rw [List.mem_flatMap] at hmem
    obtain ⟨f1, hf1, hmem⟩ := hmem
    rw [List.mem_range] at hf1
    refine ⟨r1, hr1, f1, hf1, ?_⟩
    cases hg : getCell b.board r1 f1 with
    | none =>
      simp only [hg] at hmem
      exact absurd hmem (by simp)
    | some piece =>
      simp only [hg] at hmem
      by_cases hs : piece.side ≠ b.current_side
      · rw [if_pos hs] at hmem
        exact absurd hmem (by simp)
      · rw [if_neg hs] at hmem
        rw [List.mem_filterMap] at hmem
        obtain ⟨t, ht, heq⟩ := hmem
        refine ⟨piece, rfl, not_not.mp hs, t, ht, ?_⟩
        split at heq
        · rename_i hrange
          split at heq
          · rename_i hval
            rw [Option.some.injEq] at heq
            exact ⟨hrange, hval, heq.symm⟩
          · exact absurd heq (by simp)
        · exact absurd heq (by simp)
  · rintro ⟨r1, hr1, f1, hf1, piece, hg, hside, t, ht, hrange, hval, hfmt⟩
    refine ⟨r1, List.mem_range.mpr hr1, ?_⟩
    rw [List.mem_flatMap]
    refine ⟨f1, List.mem_range.mpr hf1, ?_⟩
    simp only [hg, if_neg (not_not_intro hside)]
    rw [List.mem_filterMap]
    refine ⟨t, ht, ?_⟩
    rw [if_pos hrange, if_pos hval, Option.some.injEq]
    exact hfmt.symm

/-- Claim C3: for every well-formed position, the per-square brute-force
enumeration and the generator-pattern enumeration agree: an on-board pair
(from, to) is in `get_legal_moves(from)` exactly when the corresponding UCI
string is in `get_all_legal_moves()`. -/
theorem legal_enumeration_agreement (b : ChessBoard) (_hwf : GridWF b.board)
    (ff fr tf tr : Int)
    (hff0 : 0 ≤ ff) (hff9 : ff < 9) (hfr0 : 0 ≤ fr) (hfr10 : fr < 10)
    (htf0 : 0 ≤ tf) (htf9 : tf < 9) (htr0 : 0 ≤ tr) (htr10 : tr < 10) :
    ((tf, tr) ∈ get_legal_moves b ff fr ↔
      format_move ff fr tf tr ∈ get_all_legal_moves b) := by
  rw [mem_get_legal_moves b ff fr tf tr htf0 htf9 htr0 htr10,
      mem_get_all_legal_moves]
  constructor
  · intro hv
    obtain ⟨p, hp⟩ := is_valid_move_piece_exists b ff fr tf tr hv
    obtain ⟨hside, -, -⟩ := is_valid_move_extract b ff fr tf tr p hp hv
    have hffn : ((ff.toNat : Int)) = ff := Int.toNat_of_nonneg hff0
    have hfrn : ((fr.toNat : Int)) = fr := Int.toNat_of_nonneg hfr0
    refine ⟨fr.toNat, by omega, ff.toNat, by omega, p, ?_, hside, (tf, tr),
      ?_, ⟨htf0, htf9, htr0, htr10⟩, ?_, ?_⟩
    · rw [← get_piece_eq_getCell b.board ff fr ⟨hff0, hff9, hfr0, hfr10⟩]
      exact hp
    · rw [hffn, hfrn]
      exact valid_mem_pieceTargets b ff fr tf tr p hp hv htf0 htf9 htr0 htr10
    · rw [hffn, hfrn]
      exact hv
    · rw [hffn, hfrn]
  · rintro ⟨r1, hr1, f1, hf1, piece, hg, hside, t, ht, hrange, hval, hfmt⟩
    have h1 := format_move_inj ⟨hff0, hff9⟩ ⟨hfr0, hfr10⟩ ⟨htf0, htf9⟩ ⟨htr0, htr10⟩
      ⟨by omega, by omega⟩ ⟨by omega, by omega⟩ ⟨hrange.1, hrange.2.1⟩
      ⟨hrange.2.2.1, hrange.2.2.2⟩ hfmt
    obtain ⟨e1, e2, e3, e4⟩ := h1
    rw [e1, e2, e3, e4]
    exact hval

/-- Claim C3, witness: on the starting position, the cannon move h2e2 appears
in both enumerations. -/
theorem legal_enumeration_agreement_witness :
    (((4 : Int), (2 : Int)) ∈ get_legal_moves initialBoard 7 2 ↔
      format_move 7 2 4 2 ∈ get_all_legal_moves initialBoard) :=
  legal_enumeration_agreement initialBoard (by decide) 7 2 4 2
    (by decide) (by decide) (by decide) (by decide)
    (by decide) (by decide) (by decide) (by decide)

end Xiangqi
